import Mathlib

/-
Verification development for the Huffman image codec in `src/p.cpp`.

The C++ program compresses a PGM image with a Huffman code: it counts pixel
frequencies, builds a Huffman tree with a min-priority queue (`buildHuffmanTree`),
generates bit-string codes by tree traversal (`generateHuffmanCodes`),
concatenates the per-pixel codes, packs the bit string into bytes
(`writeCompressed`), unpacks it again (`readCompressed`) and decodes it by
walking the tree (`decompressImage`).

The definitions below are a shallow embedding of those functions:
  - `Node*` pointers become the inductive type `NTree`, with `NTree.nil`
    standing for `nullptr`;
  - the bit string `std::string` of characters '0'/'1' becomes `List Bool`
    (false for '0', true for '1');
  - `unsigned char` pixel values and byte values become `Nat`;
  - `std::unordered_map` tables become association lists, an insertion
    prepending a pair so that `List.lookup` sees the most recent write first;
  - undefined behaviour (calling `top` on an empty priority queue,
    dereferencing a null node pointer) is modelled by `Option` with `none`;
  - the `while` loop of `buildHuffmanTree` and the chunking loops of
    `writeCompressed` / `readCompressed` are written with an explicit
    iteration-count argument chosen large enough to cover the loop bound,
    so that every definition is structurally recursive and executable.

`std::priority_queue` leaves the extraction order of equal-frequency nodes
unspecified; the model `popMin` pins the deterministic refinement that the
earliest inserted node among those of minimal frequency is extracted first.
Every concrete input evaluated below has pairwise distinct relevant
frequencies, so none of the concrete results depend on this choice.
-/

/-- Embedding of `struct Node`: `nil` is the null pointer, `mk pixel freq left right`
is a node as allocated by `new Node(pixel, freq)` with its two child pointers. -/
inductive NTree where
  | nil : NTree
  | mk : Nat → Nat → NTree → NTree → NTree
deriving DecidableEq

/-- The `freq` field of a node; 0 for the null pointer (never read on `nil` in the
modelled control flow). -/
def freqOf : NTree → Nat
  | NTree.nil => 0
  | NTree.mk _ f _ _ => f

/-- Extraction from the min-priority queue, modelled on a list of nodes:
returns the earliest element of minimal `freq` together with the remaining list,
or `none` on the empty queue.  `Compare` in the source orders nodes by `freq`
(`l->freq > r->freq`), so `top` is a minimal-frequency node; the tie rule
(earliest inserted wins) is the deterministic refinement described above. -/
def popMin : List NTree → Option (NTree × List NTree)
  | [] => none
  | t :: ts =>
    match popMin ts with
    | some (m, rest) => if freqOf m < freqOf t then some (m, t :: rest) else some (t, ts)
    | none => some (t, [])

/-- The `while (minHeap.size() > 1)` loop of `buildHuffmanTree`, with an explicit
iteration budget `n` (each iteration shrinks the queue by one, so a budget equal
to the initial queue size always suffices).  Extract two nodes, the first
extracted becoming the left child and the second the right child of a fresh
internal node with `pixel = 0` and the summed frequency, and reinsert it.
When at most one node remains, return `top()`; on the empty queue `top()` is
undefined behaviour in C++, modelled as `none`. -/
def heapLoop : Nat → List NTree → Option NTree
  | 0, h => (popMin h).map Prod.fst
  | n + 1, h =>
    if h.length ≤ 1 then (popMin h).map Prod.fst
    else
      match popMin h with
      | none => none
      | some (a, h1) =>
        match popMin h1 with
        | none => none
        | some (b, h2) => heapLoop n (h2 ++ [NTree.mk 0 (freqOf a + freqOf b) a b])

/-- Embedding of `buildHuffmanTree`: seed the queue with one leaf per entry of the
frequency table (in table order), then run the merging loop. -/
def buildHuffmanTree (freq : List (Nat × Nat)) : Option NTree :=
  heapLoop freq.length (freq.map (fun pf => NTree.mk pf.1 pf.2 NTree.nil NTree.nil))

/-- Embedding of `generateHuffmanCodes(root, str, huffmanCode)`: record `str` for
the current node when its `pixel` field is nonzero, then recurse left with
`str + "0"` and right with `str + "1"`.  The map is an association list to which
an assignment prepends its pair. -/
def generateHuffmanCodes : NTree → List Bool → List (Nat × List Bool) → List (Nat × List Bool)
  | NTree.nil, _, m => m
  | NTree.mk p _ l r, s, m =>
    let m1 := if p ≠ 0 then (p, s) :: m else m
    let m2 := generateHuffmanCodes l (s ++ [false]) m1
    generateHuffmanCodes r (s ++ [true]) m2

/-- The node reached from `t` by following a path of bits (false = left child,
true = right child); following any step from the null pointer stays at `nil`. -/
def subtreeAt : NTree → List Bool → NTree
  | t, [] => t
  | NTree.nil, _ :: _ => NTree.nil
  | NTree.mk _ _ l r, b :: bs => subtreeAt (if b then r else l) bs

/-- Structural well-formedness of the trees `buildHuffmanTree` produces:
every node is either childless (a seeded leaf) or has two non-null children,
`pixel = 0` and the summed frequency (an internal node made by the loop). -/
def wfNode : NTree → Bool
  | NTree.nil => true
  | NTree.mk p f l r =>
    if l = NTree.nil ∧ r = NTree.nil then true
    else if p = 0 ∧ f = freqOf l + freqOf r ∧ l ≠ NTree.nil ∧ r ≠ NTree.nil then
      wfNode l && wfNode r
    else false

/-- The `(pixel, freq)` pairs at the childless nodes of a tree, left to right. -/
def leafList : NTree → List (Nat × Nat)
  | NTree.nil => []
  | NTree.mk p f l r =>
    if l = NTree.nil ∧ r = NTree.nil then [(p, f)] else leafList l ++ leafList r

/-- The value of `std::bitset<8>(s)` for a chunk `s` of at most 8 bit characters:
the chunk read as a binary numeral, its first character the most significant of
the `s.length` used bits (so a short final chunk lands in the LOW-order bits of
the byte). -/
def bitsetVal (s : List Bool) : Nat :=
  s.foldl (fun a b => 2 * a + (if b then 1 else 0)) 0

/-- The 8-character string `std::bitset<8>(v).to_string()`, most significant bit
first, as a list of bits. -/
def natToBits : Nat → Nat → List Bool
  | _, 0 => []
  | n, w + 1 => natToBits (n / 2) w ++ [n % 2 == 1]

/-- The 8 bits of one payload byte, most significant first. -/
def byteBits (v : Nat) : List Bool :=
  natToBits (v % 256) 8

/-- The byte-writing loop of `writeCompressed` (`for (i = 0; i < size; i += 8)`),
with an explicit iteration budget `n`: each iteration converts the next
`substr(i, 8)` chunk with `std::bitset<8>` and emits the resulting byte. -/
def wpLoop : Nat → List Bool → List Nat
  | 0, _ => []
  | n + 1, s => if s = [] then [] else bitsetVal (s.take 8) :: wpLoop n (s.drop 8)

/-- Embedding of `writeCompressed`: the payload bytes written after the
`bitsCount`, `width`, `height` header fields (the header is the bit count and
the dimensions verbatim, so only the payload needs modelling). -/
def writeCompressed (compressedData : List Bool) : List Nat :=
  wpLoop compressedData.length compressedData

/-- The effect of `compressedData.replace(i, 8, bits.to_string())`: eight new
characters replace the up to eight characters at position `i`, growing the
string when fewer than eight remained. -/
def replaceAt (s : List Bool) (i : Nat) (u : List Bool) : List Bool :=
  s.take i ++ u ++ s.drop (i + 8)

/-- The byte-reading loop of `readCompressed` (`for (i = 0; i < bitsCount; i += 8)`):
read the next payload byte and splice its 8-character `bitset` string into the
accumulator at position `i`.  If the payload runs out the loop is modelled as
stopping (a round trip always supplies exactly enough bytes). -/
def readLoop (l : Nat) : List Nat → Nat → List Bool → List Bool
  | [], _, s => s
  | c :: cs, i, s => if i < l then readLoop l cs (i + 8) (replaceAt s i (byteBits c)) else s

/-- Embedding of `readCompressed`: given the stored bit count and the payload
bytes, rebuild the bit string starting from `std::string(bitsCount, '0')`. -/
def readCompressed (bitsCount : Nat) (payload : List Nat) : List Bool :=
  readLoop bitsCount payload 0 (List.replicate bitsCount false)

/-- Tail view of the reading loop: what `readLoop` appends beyond the part of the
accumulator it has already rebuilt.  Used to reason about `readLoop` one whole
byte at a time. -/
def readAux (l : Nat) : List Nat → Nat → List Bool → List Bool
  | [], _, t => t
  | c :: cs, i, t => if i < l then byteBits c ++ readAux l cs (i + 8) (t.drop 8) else t

/-- The decoding loop of `decompressImage`: walk from `root`, one bit per step
(left on '0', right on '1'); after each step, if the reached node has a nonzero
`pixel` field emit it and reset to the root.  Stepping to a null pointer makes
the next `currentNode->pixel` read undefined behaviour, modelled as `none`. -/
def decompRun : List Bool → NTree → NTree → Option (List Nat)
  | [], _, _ => some []
  | b :: bs, root, cur =>
    match cur with
    | NTree.nil => none
    | NTree.mk _ _ l r =>
      match if b then r else l with
      | NTree.nil => none
      | NTree.mk p f l2 r2 =>
        if p ≠ 0 then (decompRun bs root root).map (fun xs => p :: xs)
        else decompRun bs root (NTree.mk p f l2 r2)

/-- Embedding of `decompressImage(compressedData, root, width, height)`.  The
`width` and `height` parameters are received and never read, exactly as in the
source. -/
def decompressImage (compressedData : List Bool) (root : NTree) (width height : Nat) :
    Option (List Nat) :=
  decompRun compressedData root root

/-- One `freq[pixel]++` step on the frequency table, modelled as an association
list keyed by first occurrence. -/
def bumpFreq (m : List (Nat × Nat)) (p : Nat) : List (Nat × Nat) :=
  match m with
  | [] => [(p, 1)]
  | (q, c) :: rest => if q = p then (q, c + 1) :: rest else (q, c) :: bumpFreq rest p

/-- The frequency-counting loop of `main`. -/
def freqTable (samples : List Nat) : List (Nat × Nat) :=
  samples.foldl bumpFreq []

/-- The encoding loop of `main`: `compressedData += huffmanCode[pixel]`, where
`operator[]` yields the empty string for a pixel without an entry. -/
def encodeSamples (samples : List Nat) (table : List (Nat × List Bool)) : List Bool :=
  samples.flatMap (fun p => ((table.lookup p).getD []))

/-- The whole pipeline of `main` on a sample sequence: build the frequency
table and tree, generate codes, concatenate the per-sample codes, pack with
`writeCompressed`, unpack with `readCompressed`, decode with `decompressImage`.
`none` marks a run that hits undefined behaviour. -/
def roundTrip (samples : List Nat) (width height : Nat) : Option (List Nat) :=
  match buildHuffmanTree (freqTable samples) with
  | none => none
  | some root =>
    let table := generateHuffmanCodes root [] []
    let bits := encodeSamples samples table
    decompressImage (readCompressed bits.length (writeCompressed bits)) root width height

/-- Total weighted code length of the code table built for a frequency table:
the sum over the table of frequency times code length. -/
def huffWeighted (freq : List (Nat × Nat)) : Option Nat :=
  (buildHuffmanTree freq).map (fun t =>
    (freq.map (fun pf =>
      pf.2 * (((generateHuffmanCodes t [] []).lookup pf.1).getD []).length)).sum)

/-- The packing described by the specification sentence for the final byte:
each chunk, the short final one included, is padded with zeros at its END to
eight bits before conversion, so a short final chunk would land in the
HIGH-order bits of the final byte. -/
def cpLoop : Nat → List Bool → List Nat
  | 0, _ => []
  | n + 1, s =>
    if s = [] then []
    else bitsetVal (s.take 8 ++ List.replicate (8 - (s.take 8).length) false) :: cpLoop n (s.drop 8)

/-- The payload claimed by the specification: most-significant-bit-first bytes
with the final byte zero-padded in its LOW-order unused bits. -/
def claimPack (s : List Bool) : List Nat :=
  cpLoop s.length s

/-- What `readCompressed` actually recovers from a packed bit string of length
`L`: every full 8-bit chunk verbatim, and, when a final chunk of `r` bits with
`0 < r < 8` exists, `8 - r` zero bits followed by those `r` bits (the partial
chunk was stored in the low-order bits of its byte, and the `replace` call
grows the string to a whole byte). -/
def srLoop : Nat → List Bool → List Bool
  | 0, _ => []
  | n + 1, s =>
    if s = [] then []
    else if 8 ≤ s.length then s.take 8 ++ srLoop n (s.drop 8)
    else List.replicate (8 - s.length) false ++ s

/-- The amended unpack result, see `srLoop`. -/
def specRead (s : List Bool) : List Bool :=
  srLoop s.length s

/-- The Huffman tree the model builds for the frequency table
`{1 : 5, 2 : 9, 3 : 12}`. -/
def treeABC : NTree :=
  NTree.mk 0 26 (NTree.mk 3 12 NTree.nil NTree.nil)
    (NTree.mk 0 14 (NTree.mk 1 5 NTree.nil NTree.nil) (NTree.mk 2 9 NTree.nil NTree.nil))

/-- The Huffman tree the model builds for the frequency table `{1 : 5, 2 : 9}`. -/
def treeAB : NTree :=
  NTree.mk 0 14 (NTree.mk 1 5 NTree.nil NTree.nil) (NTree.mk 2 9 NTree.nil NTree.nil)


theorem natToBits_length : ∀ (w n : Nat), (natToBits n w).length = w := by
  intro w
  induction w with
  | zero => intro n; rfl
  | succ w ih => intro n; rw [natToBits]; simp [ih]

theorem natToBits_zero : ∀ w : Nat, natToBits 0 w = List.replicate w false := by
  intro w
  induction w with
  | zero => rfl
  | succ w ih =>
    rw [natToBits]
    simp [ih]
    exact (List.replicate_succ' w false).symm

theorem bitsetVal_append (t : List Bool) (b : Bool) :
    bitsetVal (t ++ [b]) = 2 * bitsetVal t + (if b then 1 else 0) := by
  unfold bitsetVal
  rw [List.foldl_append]
  rfl

theorem bitsetVal_lt (s : List Bool) : bitsetVal s < 2 ^ s.length := by
  induction s using List.reverseRecOn with
  | nil => simp [bitsetVal]
  | append_singleton t b ih =>
    rw [bitsetVal_append]
    simp only [List.length_append, List.length_singleton, pow_succ]
    cases b <;> simp <;> omega

theorem natToBits_bitsetVal : ∀ (s : List Bool) (w : Nat), s.length ≤ w →
    natToBits (bitsetVal s) w = List.replicate (w - s.length) false ++ s := by
  intro s
  induction s using List.reverseRecOn with
  | nil =>
    intro w hw
    simp [bitsetVal, natToBits_zero]
  | append_singleton t b ih =>
    intro w hw
    rcases w with _ | w'
    · simp at hw
    · rw [natToBits]
      have hv : bitsetVal (t ++ [b]) = 2 * bitsetVal t + (if b then 1 else 0) :=
        bitsetVal_append t b
      have hdiv : bitsetVal (t ++ [b]) / 2 = bitsetVal t := by
        rw [hv]; cases b <;> simp <;> omega
      have hmod : (bitsetVal (t ++ [b]) % 2 == 1) = b := by
        rw [hv]
        cases b
        · have h2 : (2 * bitsetVal t + 0) % 2 = 0 := by omega
          simp [h2]
        · have h2 : (2 * bitsetVal t + 1) % 2 = 1 := by omega
          simp [h2]
      have hlen : t.length ≤ w' := by simp at hw; omega
      rw [hdiv, hmod, ih w' hlen]
      have hsub : w' + 1 - (t ++ [b]).length = w' - t.length := by simp
      rw [hsub, List.append_assoc]

theorem byteBits_bitsetVal (s : List Bool) (h : s.length ≤ 8) :
    byteBits (bitsetVal s) = List.replicate (8 - s.length) false ++ s := by
  have hlt : bitsetVal s < 256 := by
    have h1 := bitsetVal_lt s
    have h2 : (2 : Nat) ^ s.length ≤ 2 ^ 8 := Nat.pow_le_pow_right (by norm_num) h
    omega
  unfold byteBits
  rw [Nat.mod_eq_of_lt hlt]
  exact natToBits_bitsetVal s 8 h

theorem byteBits_length (v : Nat) : (byteBits v).length = 8 := by
  unfold byteBits
  exact natToBits_length 8 (v % 256)

theorem wpLoop_nil (n : Nat) : wpLoop n [] = [] := by
  cases n <;> simp [wpLoop]

theorem readLoop_append (l : Nat) :
    ∀ (bytes : List Nat) (i : Nat) (pre tl : List Bool), pre.length = i →
      readLoop l bytes i (pre ++ tl) = pre ++ readAux l bytes i tl := by
  intro bytes
  induction bytes with
  | nil => intro i pre tl hpre; simp [readLoop, readAux]
  | cons c cs ih =>
    intro i pre tl hpre
    by_cases hi : i < l
    · simp only [readLoop, readAux, if_pos hi]
      have h1 : replaceAt (pre ++ tl) i (byteBits c) = (pre ++ byteBits c) ++ tl.drop 8 := by
        unfold replaceAt
        subst hpre
        rw [List.take_left, ← List.drop_append 8]
      rw [h1, ih (i + 8) (pre ++ byteBits c) (tl.drop 8) (by simp [byteBits_length, hpre])]
      simp [List.append_assoc]
    · simp [readLoop, readAux, if_neg hi]

theorem readCompressed_eq_aux (l : Nat) (payload : List Nat) :
    readCompressed l payload = readAux l payload 0 (List.replicate l false) := by
  unfold readCompressed
  have h := readLoop_append l payload 0 [] (List.replicate l false) rfl
  simpa using h

theorem wp_read_aux (l : Nat) : ∀ (n : Nat) (rest : List Bool) (i : Nat),
    rest.length ≤ n → i + rest.length = l →
    readAux l (wpLoop n rest) i (List.replicate rest.length false) = srLoop n rest := by
  intro n
  induction n with
  | zero =>
    intro rest i hn hi
    have hr : rest = [] := List.length_eq_zero.mp (Nat.le_zero.mp hn)
    subst hr
    simp [wpLoop, readAux, srLoop]
  | succ n ih =>
    intro rest i hn hi
    by_cases hr : rest = []
    · subst hr; simp [wpLoop, readAux, srLoop]
    · have hlen : 0 < rest.length := List.length_pos.mpr hr
      have hil : i < l := by omega
      rw [wpLoop, if_neg hr, srLoop, if_neg hr]
      simp only [readAux, if_pos hil, List.drop_replicate]
      by_cases h8 : 8 ≤ rest.length
      · rw [if_pos h8]
        have htake : (rest.take 8).length = 8 := by simp [h8]
        have hbb : byteBits (bitsetVal (rest.take 8)) = rest.take 8 := by
          have h := byteBits_bitsetVal (rest.take 8) (by omega)
          simpa [htake] using h
        rw [hbb]
        have hrec := ih (rest.drop 8) (i + 8) (by simp; omega) (by simp; omega)
        simp only [List.length_drop] at hrec
        rw [hrec]
      · rw [if_neg h8]
        have htake : rest.take 8 = rest := List.take_of_length_le (by omega)
        have hdrop : rest.drop 8 = [] := List.drop_eq_nil_of_le (by omega)
        have hz : rest.length - 8 = 0 := by omega
        rw [htake, hdrop, wpLoop_nil, hz]
        simp only [readAux, List.replicate_zero]
        rw [byteBits_bitsetVal rest (by omega)]
        simp

theorem srLoop_length : ∀ (n : Nat) (s : List Bool), s.length ≤ n →
    (srLoop n s).length = 8 * ((s.length + 7) / 8) := by
  intro n
  induction n with
  | zero =>
    intro s hn
    have hs : s = [] := List.length_eq_zero.mp (Nat.le_zero.mp hn)
    subst hs; simp [srLoop]
  | succ n ih =>
    intro s hn
    by_cases hs : s = []
    · subst hs; simp [srLoop]
    · have hlen : 0 < s.length := List.length_pos.mpr hs
      rw [srLoop, if_neg hs]
      by_cases h8 : 8 ≤ s.length
      · rw [if_pos h8]
        have hrec := ih (s.drop 8) (by simp; omega)
        simp only [List.length_drop] at hrec
        simp only [List.length_append, hrec]
        have htake : (s.take 8).length = 8 := by simp [h8]
        rw [htake]
        omega
      · rw [if_neg h8]
        simp only [List.length_append, List.length_replicate]
        omega

theorem wpLoop_length : ∀ (n : Nat) (s : List Bool), s.length ≤ n →
    (wpLoop n s).length = (s.length + 7) / 8 := by
  intro n
  induction n with
  | zero =>
    intro s hn
    have hs : s = [] := List.length_eq_zero.mp (Nat.le_zero.mp hn)
    subst hs; simp [wpLoop]
  | succ n ih =>
    intro s hn
    by_cases hs : s = []
    · subst hs; simp [wpLoop]
    · have hlen : 0 < s.length := List.length_pos.mpr hs
      rw [wpLoop, if_neg hs]
      have hrec := ih (s.drop 8) (by simp; omega)
      simp only [List.length_drop] at hrec
      simp only [List.length_cons, hrec]
      omega

theorem wpLoop_flatMap : ∀ (n : Nat) (s : List Bool), s.length ≤ n →
    (wpLoop n s).flatMap byteBits = srLoop n s := by
  intro n
  induction n with
  | zero =>
    intro s hn
    have hs : s = [] := List.length_eq_zero.mp (Nat.le_zero.mp hn)
    subst hs; simp [wpLoop, srLoop]
  | succ n ih =>
    intro s hn
    by_cases hs : s = []
    · subst hs; simp [wpLoop, srLoop]
    · have hlen : 0 < s.length := List.length_pos.mpr hs
      rw [wpLoop, if_neg hs, srLoop, if_neg hs]
      by_cases h8 : 8 ≤ s.length
      · rw [if_pos h8]
        have htake : (s.take 8).length = 8 := by simp [h8]
        have hbb : byteBits (bitsetVal (s.take 8)) = s.take 8 := by
          have h := byteBits_bitsetVal (s.take 8) (by omega)
          simpa [htake] using h
        rw [List.flatMap_cons, hbb, ih (s.drop 8) (by simp; omega)]
      · rw [if_neg h8]
        have hdrop : s.drop 8 = [] := List.drop_eq_nil_of_le (by omega)
        rw [List.flatMap_cons, hdrop, wpLoop_nil]
        have htake : s.take 8 = s := List.take_of_length_le (by omega)
        rw [htake, byteBits_bitsetVal s (by omega)]
        simp

/-- C1.  The round trip fails: for the one-sample sequence `[1]` the single
symbol receives the empty code, zero bits are packed, and decompression
returns the empty sequence instead of `[1]`.  (With zero samples the pipeline
even reaches undefined behaviour, `roundTrip [] w h = none`.)  The claim that
`decompress(compress(S)) = S` for every `S`, including lengths 0 and 1, is
therefore violated by the code. -/
theorem roundTrip_drops_samples :
    roundTrip [1] 1 1 = some [] ∧ ([] : List Nat) ≠ [1] ∧ roundTrip [] 1 1 = none := by
  decide

/-- C2, counterexample.  Packing the single bit `1` and unpacking it with the
stored bit count 1 does not return the original one-bit sequence: the
`replace` call in `readCompressed` grows the string to a whole byte, so the
result has length 8 and its first bit is `0`. -/
theorem readCompressed_roundtrip_fails :
    readCompressed 1 (writeCompressed [true]) ≠ [true] ∧
      (readCompressed 1 (writeCompressed [true])).length = 8 := by
  decide

/-- C2, amended.  Packing a bit sequence of length `L` and unpacking it with the
stored bit count recovers every full 8-bit chunk verbatim; when `L = 8k + r`
with `0 < r < 8`, the result additionally carries a final whole byte consisting
of `8 - r` zero bits followed by the original last `r` bits, so its length is
`8 * ceil(L / 8)`, not `L` (`specRead` is exactly this description). -/
theorem readCompressed_writeCompressed (s : List Bool) :
    readCompressed s.length (writeCompressed s) = specRead s ∧
      (specRead s).length = 8 * ((s.length + 7) / 8) := by
  constructor
  · rw [readCompressed_eq_aux, writeCompressed, specRead]
    exact wp_read_aux s.length s.length s 0 le_rfl (by omega)
  · exact srLoop_length s.length s le_rfl

/-- C3, counterexample.  For the one-bit sequence `[1]` the claim's packing
(final byte zero-padded in its LOW-order unused bits, i.e. remaining bits in
the high-order positions) would give the byte 128, but `writeCompressed`
produces the byte 1: `std::bitset<8>` places a short chunk in the low-order
bits. -/
theorem writeCompressed_not_claimPack :
    writeCompressed [true] ≠ claimPack [true] ∧
      writeCompressed [true] = [1] ∧ claimPack [true] = [128] := by
  decide

/-- C3, amended.  `writeCompressed` produces exactly `ceil(L / 8)` payload
bytes; expanding each byte most-significant-bit-first recovers every full
8-bit chunk verbatim, but the final partial chunk of `r` bits appears in the
LOW-order bit positions of its byte (the byte value is the `r` bits read as a
binary number), with zeros in the high-order positions. -/
theorem writeCompressed_bytes (s : List Bool) :
    (writeCompressed s).length = (s.length + 7) / 8 ∧
      (writeCompressed s).flatMap byteBits = specRead s := by
  constructor
  · exact wpLoop_length s.length s le_rfl
  · rw [writeCompressed, specRead]
    exact wpLoop_flatMap s.length s le_rfl

/-- C5.  `generateHuffmanCodes` does not assign a code to every leaf symbol:
a leaf carrying the pixel value 0 is skipped (the `root->pixel != 0` test
conflates it with the internal-node sentinel), and in the degenerate
single-symbol case the root leaf receives the EMPTY code rather than a code of
length at least 1.  Both failures are shown on concrete frequency tables. -/
theorem generateHuffmanCodes_misses_symbols :
    (buildHuffmanTree [(0, 1), (5, 2)]).map
        (fun t => (generateHuffmanCodes t [] []).lookup 0) = some none ∧
      (buildHuffmanTree [(7, 100)]).map
        (fun t => (generateHuffmanCodes t [] []).lookup 7) = some (some []) := by
  decide

/-- C7.  With an empty frequency table the code does not fail with a typed
EmptyAlphabet error: `buildHuffmanTree` immediately calls `top()` on the empty
priority queue, which is undefined behaviour, modelled here as `none`. -/
theorem buildHuffmanTree_empty : buildHuffmanTree [] = none := by
  decide

/-- C8.  When the bit cursor does not land on a leaf at the end of the stream,
`decompressImage` does not surface any CorruptBitstream failure: it simply
returns the symbols decoded so far and silently discards the incomplete
trailing path.  Concretely, on the tree for `{1 : 5, 2 : 9, 3 : 12}` the
one-bit stream `1` stops at an internal node and decoding returns the empty
sample list with no error indication (the embedded function reserves `none`
for undefined behaviour, and this run is a normal return). -/
theorem decompressImage_silent_truncation :
    (buildHuffmanTree [(1, 5), (2, 9), (3, 12)]).map
        (fun t => decompressImage [true] t 3 1) = some (some []) := by
  decide

/-- C9.  On the classic alphabet `{A : 5, B : 9, C : 12, D : 13, E : 16, F : 45}`
(symbols written as their byte values 65..70) the tree built by
`buildHuffmanTree` and the codes from `generateHuffmanCodes` give a total
weighted code length of exactly 224. -/
theorem huffWeighted_classic :
    huffWeighted [(65, 5), (66, 9), (67, 12), (68, 13), (69, 16), (70, 45)] = some 224 := by
  decide

/-- C10.  The `width` and `height` arguments of `decompressImage` have no
effect on its result: the decoded sequence depends only on the bit string and
the tree, and its length is never compared with `width * height`. -/
theorem decompressImage_ignores_dimensions (d : List Bool) (t : NTree)
    (a b c e : Nat) : decompressImage d t a b = decompressImage d t c e := rfl
theorem popMin_eq_none (h : List NTree) : popMin h = none ↔ h = [] := by
  cases h with
  | nil => simp [popMin]
  | cons t ts =>
    rw [popMin]
    cases hpp : popMin ts with
    | none => simp
    | some p =>
      rcases p with ⟨m, rest⟩
      by_cases hlt : freqOf m < freqOf t <;> simp [hlt]

theorem popMin_perm : ∀ (h : List NTree) (a : NTree) (h1 : List NTree),
    popMin h = some (a, h1) → h.Perm (a :: h1) := by
  intro h
  induction h with
  | nil => intro a h1 hp; simp [popMin] at hp
  | cons t ts ih =>
    intro a h1 hp
    rw [popMin] at hp
    split at hp
    · rename_i m rest hpp
      split at hp
      · obtain ⟨rfl, rfl⟩ : m = a ∧ t :: rest = h1 := by simpa using hp
        exact ((ih _ _ hpp).cons t).trans (List.Perm.swap _ t rest)
      · obtain ⟨rfl, rfl⟩ : t = a ∧ ts = h1 := by simpa using hp
        exact List.Perm.refl _
    · rename_i hpp
      obtain ⟨rfl, rfl⟩ : t = a ∧ [] = h1 := by simpa using hp
      have hts : ts = [] := (popMin_eq_none ts).mp hpp
      subst hts
      exact List.Perm.refl _

theorem popMin_min : ∀ (h : List NTree) (a : NTree) (h1 : List NTree),
    popMin h = some (a, h1) → ∀ x ∈ h1, freqOf a ≤ freqOf x := by
  intro h
  induction h with
  | nil => intro a h1 hp; simp [popMin] at hp
  | cons t ts ih =>
    intro a h1 hp
    rw [popMin] at hp
    split at hp
    · rename_i m rest hpp
      have hmin := ih m rest hpp
      split at hp
      · rename_i hlt
        obtain ⟨rfl, rfl⟩ : m = a ∧ t :: rest = h1 := by simpa using hp
        intro x hx
        rcases List.mem_cons.mp hx with rfl | hx
        · omega
        · exact hmin x hx
      · rename_i hlt
        obtain ⟨rfl, rfl⟩ : t = a ∧ ts = h1 := by simpa using hp
        intro x hx
        rcases List.mem_cons.mp ((popMin_perm _ _ _ hpp).mem_iff.mp hx) with rfl | hx2
        · omega
        · have := hmin x hx2
          omega
    · rename_i hpp
      obtain ⟨rfl, rfl⟩ : t = a ∧ [] = h1 := by simpa using hp
      intro x hx
      simp at hx

theorem heapLoop_top (h : List NTree) (t : NTree) (hlen : h.length ≤ 1)
    (hinv : ∀ x ∈ h, x ≠ NTree.nil ∧ wfNode x = true)
    (ht : (popMin h).map Prod.fst = some t) :
    t ≠ NTree.nil ∧ wfNode t = true ∧ (leafList t).Perm (h.flatMap leafList) := by
  cases hpp : popMin h with
  | none => rw [hpp] at ht; cases ht
  | some p =>
    rcases p with ⟨a, h1⟩
    rw [hpp] at ht
    have hat : a = t := by simpa using ht
    subst hat
    have hperm := popMin_perm h a h1 hpp
    have hmem : a ∈ h := hperm.symm.subset (List.mem_cons_self a h1)
    have h1nil : h1 = [] := by
      have hl := hperm.length_eq
      simp at hl
      have hz : h1.length = 0 := by omega
      exact List.length_eq_zero.mp hz
    subst h1nil
    refine ⟨(hinv a hmem).1, (hinv a hmem).2, ?_⟩
    have hfm := hperm.flatMap_right leafList
    simp only [List.flatMap_cons, List.flatMap_nil, List.append_nil] at hfm
    exact hfm.symm

theorem heapLoop_wf : ∀ (n : Nat) (h : List NTree), h.length ≤ n + 1 →
    (∀ x ∈ h, x ≠ NTree.nil ∧ wfNode x = true) →
    ∀ t, heapLoop n h = some t →
      t ≠ NTree.nil ∧ wfNode t = true ∧ (leafList t).Perm (h.flatMap leafList) := by
  intro n
  induction n with
  | zero =>
    intro h hlen hinv t ht
    exact heapLoop_top h t hlen hinv ht
  | succ n ih =>
    intro h hlen hinv t ht
    rw [heapLoop] at ht
    by_cases hle : h.length ≤ 1
    · rw [if_pos hle] at ht
      exact heapLoop_top h t hle hinv ht
    · rw [if_neg hle] at ht
      split at ht
      · cases ht
      · rename_i a h1 hpp1
        split at ht
        · cases ht
        · rename_i b h2 hpp2
          have hperm1 := popMin_perm h a h1 hpp1
          have hperm2 := popMin_perm h1 b h2 hpp2
          have hlen1 : h1.length + 1 = h.length := by
            have hl := hperm1.length_eq
            simp at hl
            omega
          have hlen2 : h2.length + 1 = h1.length := by
            have hl := hperm2.length_eq
            simp at hl
            omega
          have hamem : a ∈ h := hperm1.symm.subset (List.mem_cons_self a h1)
          have hbmem : b ∈ h := by
            apply hperm1.symm.subset
            exact List.mem_cons_of_mem a (hperm2.symm.subset (List.mem_cons_self b h2))
          have hanil := (hinv a hamem).1
          have hbnil := (hinv b hbmem).1
          have hawf := (hinv a hamem).2
          have hbwf := (hinv b hbmem).2
          have hnewwf : wfNode (NTree.mk 0 (freqOf a + freqOf b) a b) = true := by
            rw [wfNode, if_neg (by tauto), if_pos (by tauto), hawf, hbwf]
            rfl
          have hnewleaf : leafList (NTree.mk 0 (freqOf a + freqOf b) a b) =
              leafList a ++ leafList b := by
            rw [leafList, if_neg (by tauto)]
          have hinvnew : ∀ x ∈ h2 ++ [NTree.mk 0 (freqOf a + freqOf b) a b],
              x ≠ NTree.nil ∧ wfNode x = true := by
            intro x hx
            rcases List.mem_append.mp hx with hx2 | hx2
            · have hxh : x ∈ h := by
                apply hperm1.symm.subset
                apply List.mem_cons_of_mem a
                exact hperm2.symm.subset (List.mem_cons_of_mem b hx2)
              exact hinv x hxh
            · have hxeq : x = NTree.mk 0 (freqOf a + freqOf b) a b := by simpa using hx2
              subst hxeq
              exact ⟨by simp, hnewwf⟩
          have hlennew : (h2 ++ [NTree.mk 0 (freqOf a + freqOf b) a b]).length ≤ n + 1 := by
            simp
            omega
          obtain ⟨r1, r2, r3⟩ := ih _ hlennew hinvnew t ht
          refine ⟨r1, r2, ?_⟩
          apply r3.trans
          have e1 : (h2 ++ [NTree.mk 0 (freqOf a + freqOf b) a b]).flatMap leafList =
              h2.flatMap leafList ++ (leafList a ++ leafList b) := by
            simp [List.flatMap_append, hnewleaf]
          rw [e1]
          have p1 := hperm1.flatMap_right leafList
          have p2 := hperm2.flatMap_right leafList
          simp only [List.flatMap_cons] at p1 p2
          have q1 : (h2.flatMap leafList ++ (leafList a ++ leafList b)).Perm
              ((leafList a ++ leafList b) ++ h2.flatMap leafList) := List.perm_append_comm
          have q2 : ((leafList a ++ leafList b) ++ h2.flatMap leafList).Perm
              (h.flatMap leafList) := by
            rw [List.append_assoc]
            exact (p2.symm.append_left (leafList a)).trans p1.symm
          exact q1.trans q2

theorem seed_flatMap (l : List (Nat × Nat)) :
    (l.map (fun pf => NTree.mk pf.1 pf.2 NTree.nil NTree.nil)).flatMap leafList = l := by
  induction l with
  | nil => rfl
  | cons x xs ih => simp [leafList, ih]

theorem buildHuffmanTree_wf (l : List (Nat × Nat)) (t : NTree)
    (h : buildHuffmanTree l = some t) :
    t ≠ NTree.nil ∧ wfNode t = true ∧ (leafList t).Perm l := by
  unfold buildHuffmanTree at h
  have hseed : ∀ x ∈ l.map (fun pf => NTree.mk pf.1 pf.2 NTree.nil NTree.nil),
      x ≠ NTree.nil ∧ wfNode x = true := by
    intro x hx
    simp only [List.mem_map] at hx
    obtain ⟨pf, _, rfl⟩ := hx
    exact ⟨by simp, by rw [wfNode, if_pos ⟨rfl, rfl⟩]⟩
  have hlen : (l.map (fun pf => NTree.mk pf.1 pf.2 NTree.nil NTree.nil)).length ≤
      l.length + 1 := by simp
  obtain ⟨r1, r2, r3⟩ := heapLoop_wf l.length _ hlen hseed t h
  refine ⟨r1, r2, ?_⟩
  rwa [seed_flatMap] at r3

theorem leafList_sum : ∀ t : NTree, wfNode t = true → t ≠ NTree.nil →
    ((leafList t).map Prod.snd).sum = freqOf t := by
  intro t
  induction t with
  | nil => intro _ hne; exact absurd rfl hne
  | mk p f l r ihl ihr =>
    intro hwf _
    rw [wfNode] at hwf
    by_cases hc : l = NTree.nil ∧ r = NTree.nil
    · rw [leafList, if_pos hc]
      simp [freqOf]
    · rw [if_neg hc] at hwf
      by_cases hc2 : p = 0 ∧ f = freqOf l + freqOf r ∧ l ≠ NTree.nil ∧ r ≠ NTree.nil
      · rw [if_pos hc2] at hwf
        rw [Bool.and_eq_true] at hwf
        rw [leafList, if_neg hc]
        rw [List.map_append, List.sum_append, ihl hwf.1 hc2.2.2.1, ihr hwf.2 hc2.2.2.2]
        simp [freqOf, hc2.2.1]
      · rw [if_neg hc2] at hwf
        cases hwf

/-- C6.  For every nonempty frequency table the merging loop terminates with a
single root node; the root's childless nodes carry exactly the seeded
`(symbol, frequency)` pairs; every internal node is a combination node with
`pixel = 0`, two non-null children and the sum of its children's frequencies
(`wfNode`); the root's frequency is the total input frequency; and the queue
extraction that drives the loop always returns a node of minimal frequency
(the node extracted first becoming the left child is definitional in
`heapLoop`). -/
theorem buildHuffmanTree_structure (l : List (Nat × Nat)) (t : NTree)
    (h : buildHuffmanTree l = some t) :
    t ≠ NTree.nil ∧ wfNode t = true ∧ (leafList t).Perm l ∧
      freqOf t = (l.map Prod.snd).sum ∧
      ∀ (q : List NTree) (a : NTree) (q1 : List NTree), popMin q = some (a, q1) →
        ∀ x ∈ q1, freqOf a ≤ freqOf x := by
  obtain ⟨r1, r2, r3⟩ := buildHuffmanTree_wf l t h
  refine ⟨r1, r2, r3, ?_, popMin_min⟩
  rw [← leafList_sum t r2 r1]
  exact (r3.map Prod.snd).sum_eq

/-- Witness for C6 at the concrete table `{1 : 5, 2 : 9}`, whose built tree is
`treeAB`. -/
theorem buildHuffmanTree_structure_witness :
    treeAB ≠ NTree.nil ∧ wfNode treeAB = true ∧
      (leafList treeAB).Perm [(1, 5), (2, 9)] ∧
      freqOf treeAB = ([(1, 5), (2, 9)].map Prod.snd).sum ∧
      ∀ (q : List NTree) (a : NTree) (q1 : List NTree), popMin q = some (a, q1) →
        ∀ x ∈ q1, freqOf a ≤ freqOf x :=
  buildHuffmanTree_structure [(1, 5), (2, 9)] treeAB (by decide)

theorem wfNode_cases (p f : Nat) (l r : NTree) (h : wfNode (NTree.mk p f l r) = true) :
    (l = NTree.nil ∧ r = NTree.nil) ∨
      (p = 0 ∧ l ≠ NTree.nil ∧ r ≠ NTree.nil ∧ wfNode l = true ∧ wfNode r = true) := by
  rw [wfNode] at h
  by_cases hc : l = NTree.nil ∧ r = NTree.nil
  · exact Or.inl hc
  · rw [if_neg hc] at h
    by_cases hc2 : p = 0 ∧ f = freqOf l + freqOf r ∧ l ≠ NTree.nil ∧ r ≠ NTree.nil
    · rw [if_pos hc2] at h
      rw [Bool.and_eq_true] at h
      exact Or.inr ⟨hc2.1, hc2.2.2.1, hc2.2.2.2, h.1, h.2⟩
    · rw [if_neg hc2] at h
      cases h

theorem subtreeAt_nil_tree : ∀ (u : List Bool), subtreeAt NTree.nil u = NTree.nil := by
  intro u
  cases u <;> rfl

theorem subtreeAt_append : ∀ (u v : List Bool) (t : NTree),
    subtreeAt t (u ++ v) = subtreeAt (subtreeAt t u) v := by
  intro u
  induction u with
  | nil => intro v t; simp [subtreeAt]
  | cons b bs ih =>
    intro v t
    cases t with
    | nil => rw [subtreeAt_nil_tree, subtreeAt_nil_tree, subtreeAt_nil_tree]
    | mk p f l r =>
      rw [List.cons_append, subtreeAt, subtreeAt]
      exact ih v (if b then r else l)

theorem subtreeAt_leaf_extension (t : NTree) (u : List Bool) (a f : Nat)
    (h : subtreeAt t u = NTree.mk a f NTree.nil NTree.nil) (b : Bool) (v : List Bool) :
    subtreeAt t (u ++ b :: v) = NTree.nil := by
  rw [subtreeAt_append, h, subtreeAt]
  cases b <;> simp <;> exact subtreeAt_nil_tree v

theorem generateHuffmanCodes_lookup :
    ∀ (t : NTree) (s : List Bool) (m : List (Nat × List Bool)) (a : Nat) (ca : List Bool),
      wfNode t = true → (generateHuffmanCodes t s m).lookup a = some ca →
      m.lookup a = some ca ∨
        (a ≠ 0 ∧ ∃ suf, ca = s ++ suf ∧
          ∃ f, subtreeAt t suf = NTree.mk a f NTree.nil NTree.nil) := by
  intro t
  induction t with
  | nil => intro s m a ca _ h; exact Or.inl h
  | mk p f l r ihl ihr =>
    intro s m a ca hwf h
    have hdich := wfNode_cases p f l r hwf
    have hwl : wfNode l = true := by
      rcases hdich with ⟨h1, _⟩ | h2
      · rw [h1]; rfl
      · exact h2.2.2.2.1
    have hwr : wfNode r = true := by
      rcases hdich with ⟨_, h1⟩ | h2
      · rw [h1]; rfl
      · exact h2.2.2.2.2
    rw [generateHuffmanCodes] at h
    rcases ihr (s ++ [true]) _ a ca hwr h with h2 | ⟨ha0, suf, hca, f2, hsub⟩
    · rcases ihl (s ++ [false]) _ a ca hwl h2 with h3 | ⟨ha0, suf, hca, f2, hsub⟩
      · by_cases hp : p ≠ 0
        · rw [if_pos hp] at h3
          by_cases hap : a = p
          · have hca : ca = s := by
              rw [List.lookup] at h3
              have hb : (a == p) = true := by simpa using hap
              rw [hb] at h3
              simpa using h3.symm
            refine Or.inr ⟨by rw [hap]; exact hp, [], by simp [hca], f, ?_⟩
            have hchildless : l = NTree.nil ∧ r = NTree.nil := by
              rcases hdich with hc | hc
              · exact hc
              · exact absurd hc.1 (by rw [← hap]; exact fun hz => hp (hap ▸ hz))
            rw [subtreeAt, hchildless.1, hchildless.2, hap]
          · rw [List.lookup] at h3
            have hb : (a == p) = false := by simpa using hap
            rw [hb] at h3
            exact Or.inl h3
        · rw [if_neg hp] at h3
          exact Or.inl h3
      · refine Or.inr ⟨ha0, false :: suf, by rw [hca, List.append_assoc]; rfl, f2, ?_⟩
        rw [subtreeAt]
        simpa using hsub
    · refine Or.inr ⟨ha0, true :: suf, by rw [hca, List.append_assoc]; rfl, f2, ?_⟩
      rw [subtreeAt]
      simpa using hsub

/-- C4.  The code table produced by `generateHuffmanCodes` on a tree built by
`buildHuffmanTree` is prefix-free: for any two distinct symbols that both have
entries, the code of one is never a prefix of the code of the other.  (Both
codes are paths to childless nodes of the built tree, and no path through a
childless node can continue.) -/
theorem huffmanCodes_incomparable (l : List (Nat × Nat)) (t : NTree) (a b : Nat)
    (ca cb : List Bool) (ht : buildHuffmanTree l = some t) (hab : a ≠ b)
    (ha : (generateHuffmanCodes t [] []).lookup a = some ca)
    (hb : (generateHuffmanCodes t [] []).lookup b = some cb) :
    ¬ ca <+: cb := by
  obtain ⟨-, hwf, -⟩ := buildHuffmanTree_wf l t ht
  rcases generateHuffmanCodes_lookup t [] [] a ca hwf ha with hca | ⟨ha0, sufa, hcaeq, fa, hsuba⟩
  · simp [List.lookup] at hca
  rcases generateHuffmanCodes_lookup t [] [] b cb hwf hb with hcb | ⟨hb0, sufb, hcbeq, fb, hsubb⟩
  · simp [List.lookup] at hcb
  simp only [List.nil_append] at hcaeq hcbeq
  subst hcaeq
  subst hcbeq
  intro hpre
  obtain ⟨rest, hrest⟩ := hpre
  cases rest with
  | nil =>
    rw [List.append_nil] at hrest
    subst hrest
    rw [hsuba] at hsubb
    injection hsubb with h1 _ _ _
    exact hab h1
  | cons x rest =>
    rw [← hrest] at hsubb
    rw [subtreeAt_leaf_extension t ca a fa hsuba x rest] at hsubb
    cases hsubb

/-- Witness for C4 on the table `{1 : 5, 2 : 9, 3 : 12}` (built tree `treeABC`),
with the codes of symbols 1 and 2. -/
theorem huffmanCodes_incomparable_witness : ¬ [true, false] <+: [true, true] :=
  huffmanCodes_incomparable [(1, 5), (2, 9), (3, 12)] treeABC 1 2 [true, false] [true, true]
    (by decide) (by decide) (by decide) (by decide)
